import Mathlib

/-!
# Athena ABI decoder (`athena/decoder/abi_decoder.go`)

A shallow embedding of the two functions of the package, `TypeToReadableName`
and `GetParsedAbi`, together with the parts of the Go standard library they
call (`strings.Split`, `strings.Join`, `fmt.Sprintf`, `encoding/json`).

Go strings are modelled by `String`, slices by `List`, a failing
`json.Unmarshal` by `none`, and the effects of `GetParsedAbi` (lines written
with `fmt.Printf`, messages written with `log.Printf`, the way the call ends)
by the record `Run`.
-/

namespace Decoder

/-! ## `strings` -/

/-- The call `strings.Split(s, "::")` on the characters of `s`: the text is cut
at the leftmost occurrence of two consecutive colons, and the rest is cut again
after it, so that `a:::b` gives `a` and `:b`. -/
def splitSep : List Char → List (List Char)
  | [] => [[]]
  | ':' :: ':' :: rest => [] :: splitSep rest
  | c :: rest =>
    match splitSep rest with
    | [] => [[c]]
    | p :: ps => (c :: p) :: ps

/-- The slice returned by `strings.Split(s, "::")`. -/
def stringsSplit (s : String) : List String :=
  (splitSep s.toList).map String.mk

/-- The call `strings.Join(elems, ", ")`. -/
def stringsJoin (elems : List String) : String :=
  ", ".intercalate elems

/-- The call `fmt.Sprintf("%s: %s", a, b)`. -/
def sprintfPair (a b : String) : String :=
  a ++ ": " ++ b

/-- Whether two consecutive colons occur somewhere in the text. -/
def hasSep : List Char → Bool
  | [] => false
  | ':' :: ':' :: _ => true
  | _ :: rest => hasSep rest

/-! ## `TypeToReadableName` -/

/-- The map literal `typeMappings` of `TypeToReadableName`. -/
def typeMappings : List (String × String) :=
  [("felt252", "Felt252"),
   ("address", "ContractAddress"),
   ("u256", "U256"),
   ("core::felt252", "Felt252"),
   ("core::address", "ContractAddress"),
   ("core::u256", "U256")]

/-- The function `TypeToReadableName`: the last part of `typ` is looked up in
`typeMappings`, and `typ` is returned when the lookup finds nothing. -/
def TypeToReadableName (typ : String) : String :=
  let parts := stringsSplit typ
  if h : parts.length > 0 then
    match typeMappings.lookup (parts[parts.length - 1]) with
    | some name => name
    | none => typ
  else typ

/-! ## `encoding/json`

The scanner of `encoding/json` (text to value, and back) belongs to the Go
standard library and is not part of the package; it is a parameter
`parse : String → Option Json` of the functions below, `none` standing for text
that is not JSON, and for text with a number that `float64` cannot hold (in
`GetParsedAbi` such a number either meets a target that takes no number or is
stored into an `interface{}`, and is an error both ways).  How a value is stored
into a Go target of a given type is modelled here, for the target types that
the package declares.  The text that `json.Marshal` writes for an item is read
back by `json.Unmarshal` as the value it was written from, so the bytes of
`itemBytes` are represented by that value. -/

/-- A JSON value. The members of an object are kept in the order of the text,
repeated keys included. The digits of a number are not interpreted: no target
type of the package holds a number. -/
inductive Json where
  | null
  | bool (b : Bool)
  | num (lit : String)
  | str (s : String)
  | arr (elems : List Json)
  | obj (members : List (String × Json))

/-- Order of two keys as Go compares strings (byte-wise, which on UTF-8 text is
the order of the code points). -/
def keyLe : List Char → List Char → Bool
  | [], _ => true
  | _ :: _, [] => false
  | a :: as, b :: bs =>
    if a.toNat < b.toNat then true
    else if b.toNat < a.toNat then false
    else keyLe as bs

/-- A Go map keeps one value per key: storing the members of an object in turn
leaves, for each key, the value of its last occurrence. -/
def dedupLast : List (String × Json) → List (String × Json)
  | [] => []
  | (k, v) :: rest =>
    if rest.any (fun e => e.1 == k) then dedupLast rest else (k, v) :: dedupLast rest

/-- Insertion of one member into members sorted by key. -/
def insertKey (e : String × Json) : List (String × Json) → List (String × Json)
  | [] => [e]
  | x :: xs => if keyLe e.1.toList x.1.toList then e :: x :: xs else x :: insertKey e xs

/-- The members of a Go map in the order in which `json.Marshal` writes them:
sorted by key. -/
def sortKeys : List (String × Json) → List (String × Json)
  | [] => []
  | e :: es => insertKey e (sortKeys es)

mutual
/-- The value written by `json.Marshal` for the Go value that `json.Unmarshal`
stores into an `interface{}`: every object has become a `map[string]interface{}`,
so it is written with one member per key, sorted by key. -/
def reencode : Json → Json
  | .arr elems => .arr (reencodeElems elems)
  | .obj members => .obj (sortKeys (dedupLast (reencodeMembers members)))
  | j => j
/-- The function `reencode` on the elements of an array. -/
def reencodeElems : List Json → List Json
  | [] => []
  | x :: xs => reencode x :: reencodeElems xs
/-- The function `reencode` on the member values of an object. -/
def reencodeMembers : List (String × Json) → List (String × Json)
  | [] => []
  | (k, v) :: rest => (k, reencode v) :: reencodeMembers rest
end

/-- Case folding of one character of an object key against the ASCII field
names of the package: ASCII letters fold to upper case, and the long s (U+017F)
and the Kelvin sign (U+212A) fold to `S` and `K`, the only characters outside
ASCII that Unicode simple folding identifies with an ASCII letter. -/
def foldRune (c : Char) : Char :=
  if c = Char.ofNat 0x17F then 'S'
  else if c = Char.ofNat 0x212A then 'K'
  else c.toUpper

/-- Whether the object key `key` matches the field name `field` when case is
ignored. -/
def equalFold (field key : String) : Bool :=
  field.toList.map foldRune == key.toList.map foldRune

/-- The struct field that receives the member `key`: the field whose name is
exactly `key`, and otherwise the first field whose name matches `key` when case
is ignored. -/
def findField (fields : List String) (key : String) : Option String :=
  match fields.find? (fun f => f == key) with
  | some f => some f
  | none => fields.find? (fun f => equalFold f key)

/-- Storing a JSON value into a Go `string` that holds `cur`: `null` leaves it,
a string replaces it, anything else is a type mismatch. -/
def decodeString (cur : String) : Json → Option String
  | .null => some cur
  | .str s => some s
  | _ => none

/-- Storing the members of an object into a struct that holds `cur`, in the
order of the text: a member whose key resolves to a field is stored into that
field by `store`, any other member is skipped. `json.Unmarshal` goes on after a
type mismatch and reports it at the end; the package discards the struct
whenever an error is reported, so the model stops at the first mismatch. -/
def decodeMembers {α : Type} (fields : List String) (store : String → α → Json → Option α) :
    α → List (String × Json) → Option α
  | cur, [] => some cur
  | cur, (k, v) :: rest =>
    match findField fields k with
    | none => decodeMembers fields store cur rest
    | some f =>
      match store f cur v with
      | none => none
      | some next => decodeMembers fields store next rest

/-- Storing a JSON value into a struct that holds `cur`: `null` leaves it, an
object is stored member by member, anything else is a type mismatch. -/
def decodeStruct {α : Type} (fields : List String) (store : String → α → Json → Option α)
    (cur : α) : Json → Option α
  | .null => some cur
  | .obj members => decodeMembers fields store cur members
  | _ => none

/-- A Go slice as `json.Unmarshal` finds it in a struct field: its elements, and
the values left in the slots of its backing array past its length. A slot that
was never written holds the zero value, as every slot of a new backing array
does, so only the slots that were written are listed. -/
structure Slice (α : Type) where
  elems : List α
  spare : List α

/-- Storing the elements of an array into the slots `cur` of a backing array:
the element at an index below the number of slots is stored into the value
already in that slot, every further element into the zero value. -/
def decodeElems {α : Type} (elem : α → Json → Option α) (zero : α) :
    List α → List Json → Option (List α)
  | _, [] => some []
  | cur, x :: xs =>
    match elem (cur.headD zero) x with
    | none => none
    | some e =>
      match decodeElems elem zero cur.tail xs with
      | none => none
      | some es => some (e :: es)

/-- Storing a JSON value into the slice `cur`: `null` gives the nil slice, the
empty array a new empty slice, and anything that is not an array is a type
mismatch. The elements of an array are stored in turn into the slots of the
backing array, those past the length included (the length is extended over
them as they are); the slots past the last element stay as they are, and when
the array has more elements than the backing array has slots, the new backing
array has nothing in its further slots. -/
def decodeSlice {α : Type} (elem : α → Json → Option α) (zero : α) (cur : Slice α) :
    Json → Option (Slice α)
  | .null => some ⟨[], []⟩
  | .arr [] => some ⟨[], []⟩
  | .arr (x :: xs) =>
    match decodeElems elem zero (cur.elems ++ cur.spare) (x :: xs) with
    | none => none
    | some es => some ⟨es, (cur.elems ++ cur.spare).drop (x :: xs).length⟩
  | _ => none

/-! ## The types of the package -/

/-- The struct `Member`. -/
structure Member where
  Name : String
  Typ : String
deriving DecidableEq

/-- The struct `Output`. -/
structure Output where
  Typ : String
deriving DecidableEq

/-- The struct `Function`. -/
structure Function where
  Typ : String
  Name : String
  Inputs : List Member
  Outputs : List Output
  StateMutability : String
deriving DecidableEq

/-- The struct `ABIType`. -/
structure ABIType where
  Typ : String
  Name : String
deriving DecidableEq

/-- The struct `InterfaceType`, which embeds `ABIType`. -/
structure InterfaceType extends ABIType where
  Items : List Function
deriving DecidableEq

/-- The struct `EventType`, which embeds `ABIType`. -/
structure EventType extends ABIType where
  Members : List Member
deriving DecidableEq

/-- One element of `abi`, a `map[string]interface{}`: the nil map, stored for
a JSON `null`, or the map built from the members of an object. -/
inductive GenericItem where
  | nil
  | map (members : List (String × Json))

/-- A `Function` while `json.Unmarshal` stores into it: its slices are kept with
the spare slots of their backing arrays. -/
structure FunctionCell where
  Typ : String
  Name : String
  Inputs : Slice Member
  Outputs : Slice Output
  StateMutability : String

/-- The `Function` that the package reads from the decoded struct. -/
def FunctionCell.value (c : FunctionCell) : Function :=
  ⟨c.Typ, c.Name, c.Inputs.elems, c.Outputs.elems, c.StateMutability⟩

/-- An `InterfaceType` while `json.Unmarshal` stores into it. -/
structure InterfaceCell where
  Typ : String
  Name : String
  Items : Slice FunctionCell

/-- The `InterfaceType` that the package reads from the decoded struct. -/
def InterfaceCell.value (c : InterfaceCell) : InterfaceType :=
  ⟨⟨c.Typ, c.Name⟩, c.Items.elems.map FunctionCell.value⟩

/-- An `EventType` while `json.Unmarshal` stores into it. -/
structure EventCell where
  Typ : String
  Name : String
  Members : Slice Member

/-- The `EventType` that the package reads from the decoded struct. -/
def EventCell.value (c : EventCell) : EventType :=
  ⟨⟨c.Typ, c.Name⟩, c.Members.elems⟩

/-- Store into the field of a `Member` named by the JSON tag `f`. -/
def Member.store (f : String) (m : Member) (v : Json) : Option Member :=
  if f = "name" then (decodeString m.Name v).map (fun s => { m with Name := s })
  else if f = "type" then (decodeString m.Typ v).map (fun s => { m with Typ := s })
  else some m

/-- Storing a JSON value into a `Member`. -/
def decodeMember (cur : Member) (v : Json) : Option Member :=
  decodeStruct ["name", "type"] Member.store cur v

/-- Store into the field of an `Output` named by the JSON tag `f`. -/
def Output.store (f : String) (o : Output) (v : Json) : Option Output :=
  if f = "type" then (decodeString o.Typ v).map (fun s => { o with Typ := s })
  else some o

/-- Storing a JSON value into an `Output`. -/
def decodeOutput (cur : Output) (v : Json) : Option Output :=
  decodeStruct ["type"] Output.store cur v

/-- Store into the field of a `Function` named by the JSON tag `f`. -/
def FunctionCell.store (f : String) (fn : FunctionCell) (v : Json) : Option FunctionCell :=
  if f = "type" then (decodeString fn.Typ v).map (fun s => { fn with Typ := s })
  else if f = "name" then (decodeString fn.Name v).map (fun s => { fn with Name := s })
  else if f = "inputs" then
    (decodeSlice decodeMember ⟨"", ""⟩ fn.Inputs v).map (fun l => { fn with Inputs := l })
  else if f = "outputs" then
    (decodeSlice decodeOutput ⟨""⟩ fn.Outputs v).map (fun l => { fn with Outputs := l })
  else if f = "state_mutability" then
    (decodeString fn.StateMutability v).map (fun s => { fn with StateMutability := s })
  else some fn

/-- The field names of `Function`, in the order of the declaration. -/
def functionFields : List String :=
  ["type", "name", "inputs", "outputs", "state_mutability"]

/-- Storing a JSON value into a `Function`. -/
def decodeFunction (cur : FunctionCell) (v : Json) : Option FunctionCell :=
  decodeStruct functionFields FunctionCell.store cur v

/-- Store into the field of an `InterfaceType` named by the JSON tag `f`. -/
def InterfaceCell.store (f : String) (i : InterfaceCell) (v : Json) : Option InterfaceCell :=
  if f = "type" then (decodeString i.Typ v).map (fun s => { i with Typ := s })
  else if f = "name" then (decodeString i.Name v).map (fun s => { i with Name := s })
  else if f = "items" then
    (decodeSlice decodeFunction ⟨"", "", ⟨[], []⟩, ⟨[], []⟩, ""⟩ i.Items v).map
      (fun l => { i with Items := l })
  else some i

/-- The field names of `InterfaceType`, in the order of the declaration. -/
def interfaceFields : List String := ["type", "name", "items"]

/-- The call `json.Unmarshal(itemBytes, &i)` with `var i InterfaceType`. -/
def unmarshalInterfaceType (itemBytes : Json) : Option InterfaceType :=
  (decodeStruct interfaceFields InterfaceCell.store ⟨"", "", ⟨[], []⟩⟩ itemBytes).map
    InterfaceCell.value

/-- Store into the field of an `EventType` named by the JSON tag `f`. -/
def EventCell.store (f : String) (e : EventCell) (v : Json) : Option EventCell :=
  if f = "type" then (decodeString e.Typ v).map (fun s => { e with Typ := s })
  else if f = "name" then (decodeString e.Name v).map (fun s => { e with Name := s })
  else if f = "members" then
    (decodeSlice decodeMember ⟨"", ""⟩ e.Members v).map (fun l => { e with Members := l })
  else some e

/-- The field names of `EventType`, in the order of the declaration. -/
def eventFields : List String := ["type", "name", "members"]

/-- The call `json.Unmarshal(itemBytes, &event)` with `var event EventType`. -/
def unmarshalEventType (itemBytes : Json) : Option EventType :=
  (decodeStruct eventFields EventCell.store ⟨"", "", ⟨[], []⟩⟩ itemBytes).map EventCell.value

/-- Storing one element of the payload into a `map[string]interface{}`. -/
def decodeItem : Json → Option GenericItem
  | .null => some .nil
  | .obj members => some (.map members)
  | _ => none

/-- Storing the elements of the payload into the elements of `abi`. -/
def decodeItems : List Json → Option (List GenericItem)
  | [] => some []
  | x :: xs =>
    match decodeItem x with
    | none => none
    | some item =>
      match decodeItems xs with
      | none => none
      | some items => some (item :: items)

/-- The call `json.Unmarshal(data, &abi)` with `var abi []map[string]interface{}`
still nil: `null` leaves the nil slice, an array is stored element by element,
anything else (and text that is not JSON) is an error. -/
def unmarshalAbi (parse : String → Option Json) (data : String) : Option (List GenericItem) :=
  match parse data with
  | some .null => some []
  | some (.arr elems) => decodeItems elems
  | _ => none

/-- The call `json.Unmarshal(data, &abiString)` with `var abiString string`. -/
def unmarshalString (parse : String → Option Json) (data : String) : Option String :=
  match parse data with
  | some j => decodeString "" j
  | none => none

/-- The value `m[key]` of a Go map built from the members `ms`: the value of
the last occurrence of `key`, and `none` (Go `nil`) when there is none. -/
def mapGet (key : String) : List (String × Json) → Option Json
  | [] => none
  | (k, v) :: rest =>
    match mapGet key rest with
    | some w => some w
    | none => if k = key then some v else none

/-- The expression `item["type"]`. -/
def itemTag : GenericItem → Option Json
  | .nil => none
  | .map members => mapGet "type" members

/-- The comparison of the `switch` between `item["type"]` and a string constant:
it holds when the value is a string equal to the constant. -/
def tagIs (tag : Option Json) (name : String) : Bool :=
  match tag with
  | some (.str s) => s == name
  | _ => false

/-- The call `json.Marshal(item)`. It cannot fail on a map that `json.Unmarshal`
built, so the result is always `Except.ok`. -/
def jsonMarshal : GenericItem → Except String Json
  | .nil => .ok .null
  | .map members => .ok (reencode (.obj members))

/-! ## `GetParsedAbi` -/

/-- One effect of `GetParsedAbi`: a line written by `fmt.Printf` (the text
without its final newline), or a message written by `log.Printf`. -/
inductive Out where
  | stdout (line : String)
  | log (msg : String)
deriving DecidableEq

/-- How a call of `GetParsedAbi` ends: it returns, it stops the process with
`log.Fatalf`, or it panics on an index out of range. -/
inductive Exit where
  | returned
  | fatal (msg : String)
  | panicked
deriving DecidableEq

/-- The effects of a call, in order, and the way it ends. -/
structure Run where
  out : List Out
  exit : Exit
deriving DecidableEq

/-- The loop that builds `inputs` (for a function) and `members` (for an
event): one `name: type` text per member, appended in turn. -/
def memberTexts (members : List Member) : List String :=
  members.foldl
    (fun acc member => acc ++ [sprintfPair member.Name (TypeToReadableName member.Typ)]) []

/-- The loop that builds `outputs`. -/
def outputTexts (outputs : List Output) : List String :=
  outputs.foldl (fun acc output => acc ++ [TypeToReadableName output.Typ]) []

/-- The text written by the `fmt.Printf` of the interface case. -/
def functionLine (funcItem : Function) : String :=
  "Function: " ++ funcItem.Name ++ "(" ++ stringsJoin (memberTexts funcItem.Inputs)
    ++ ") -> (" ++ stringsJoin (outputTexts funcItem.Outputs)
    ++ ") [State Mutability: " ++ funcItem.StateMutability ++ "]"

/-- The loop over `i.Items` of the interface case. -/
def interfaceLines (i : InterfaceType) : List Out :=
  i.Items.foldl (fun acc funcItem => acc ++ [Out.stdout (functionLine funcItem)]) []

/-- The body of the event case; `none` is the panic of `parts[len(parts)-1]`
on an index out of range. -/
def eventLines (event : EventType) : Option (List Out) :=
  let parts := stringsSplit event.Name
  match parts[parts.length - 1]? with
  | none => none
  | some lastWord =>
    some [Out.stdout
      ("Event: " ++ lastWord ++ "(" ++ stringsJoin (memberTexts event.Members) ++ ")")]

/-- The body of the loop over `abi` for one item: its effects, or `none` when
it panics. -/
def processItem (item : GenericItem) : Option (List Out) :=
  match jsonMarshal item with
  | .error err => some [Out.log ("Error marshaling item: " ++ err)]
  | .ok itemBytes =>
    if tagIs (itemTag item) "interface" then
      match unmarshalInterfaceType itemBytes with
      | some i => some (interfaceLines i)
      | none => some []
    else if tagIs (itemTag item) "event" then
      match unmarshalEventType itemBytes with
      | some event => eventLines event
      | none => some []
    else some []

/-- The loop over `abi`. -/
def processItems : List GenericItem → Run
  | [] => ⟨[], .returned⟩
  | item :: rest =>
    match processItem item with
    | none => ⟨[], .panicked⟩
    | some o => ⟨o ++ (processItems rest).out, (processItems rest).exit⟩

/-- The first part of `GetParsedAbi`, which fills `abi`: the payload is read as
an array of items, and failing that as a string whose contents are read as an
array of items; `Except.error` is the fixed part of the message of
`log.Fatalf`, before the text of the error of the library. When the first
attempt fails on a payload that is a string, it leaves `abi` nil, so the last
attempt starts from the nil slice as well. -/
def normalizePayload (parse : String → Option Json) (abi_to_decode : String) :
    Except String (List GenericItem) :=
  match unmarshalAbi parse abi_to_decode with
  | some abi => .ok abi
  | none =>
    match unmarshalString parse abi_to_decode with
    | some abiString =>
      match unmarshalAbi parse abiString with
      | some abi => .ok abi
      | none => .error "Error parsing ABI string"
    | none => .error "Error unmarshalling ABI"

/-- The function `GetParsedAbi`. -/
def GetParsedAbi (parse : String → Option Json) (abi_to_decode : String) : Run :=
  match normalizePayload parse abi_to_decode with
  | .error msg => ⟨[], .fatal msg⟩
  | .ok abi => processItems abi

/-! ## Notions used to state the properties -/

/-- The final segment of `s` between `::` separators: the last element of
`strings.Split(s, "::")`. -/
def finalSegment (s : String) : String :=
  (stringsSplit s).getLast?.getD ""

/-- The three-entry table of short names. -/
def shortNames : List (String × String) :=
  [("felt252", "Felt252"), ("address", "ContractAddress"), ("u256", "U256")]

/-- The `InterfaceType` that the interface case decodes from `item`, when the
decoding reports no error. -/
def decodeInterface (item : GenericItem) : Option InterfaceType :=
  match jsonMarshal item with
  | .ok itemBytes => unmarshalInterfaceType itemBytes
  | .error _ => none

/-- The `EventType` that the event case decodes from `item`, when the decoding
reports no error. -/
def decodeEvent (item : GenericItem) : Option EventType :=
  match jsonMarshal item with
  | .ok itemBytes => unmarshalEventType itemBytes
  | .error _ => none

/-- Whether the `type` tag of `item` selects a case of the `switch` other than
`default`. -/
def rendersTag (item : GenericItem) : Bool :=
  tagIs (itemTag item) "interface" || tagIs (itemTag item) "event"

/-- Whether an effect is a line written to the standard output. -/
def isLine : Out → Bool
  | .stdout _ => true
  | .log _ => false

/-- Whether an effect is a diagnostic written with `log.Printf`. -/
def isDiagnostic : Out → Bool
  | .stdout _ => false
  | .log _ => true

/-- Whether an effect is a line that begins with `Function: `. -/
def isFunctionLine : Out → Bool
  | .stdout line => "Function: ".toList.isPrefixOf line.toList
  | .log _ => false

/-- The number of `Function` entries that `item` contributes: the length of
`items` when `item` is tagged `interface` and decodes, and zero otherwise. -/
def functionCount (item : GenericItem) : Nat :=
  if tagIs (itemTag item) "interface" then
    match decodeInterface item with
    | some i => i.Items.length
    | none => 0
  else 0

/-- Whether no member of `item` is stored into the struct field `field`: no key
of `item` is the field name, in any case. -/
def lacksField (field : String) : GenericItem → Bool
  | .nil => true
  | .map members => members.all (fun e => !equalFold field e.1)

/-- The effects of the loop body for `item`. -/
def itemEffects (item : GenericItem) : List Out :=
  (processItem item).getD []

/-! ## Sample inputs -/

/-- An event without `name`:
`{"type":"event","members":[{"name":"from","type":"core::address"}]}`. -/
def namelessEvent : GenericItem :=
  .map [("type", .str "event"),
        ("members", .arr [.obj [("name", .str "from"), ("type", .str "core::address")]])]

/-- An event whose `members` is not an array: `{"type":"event","name":"E","members":5}`. -/
def malformedEvent : GenericItem :=
  .map [("type", .str "event"), ("name", .str "E"), ("members", .num "5")]

/-- An interface whose `items` is not an array: `{"type":"interface","items":"none"}`. -/
def malformedInterface : GenericItem :=
  .map [("type", .str "interface"), ("items", .str "none")]

/-- An item with an unknown tag: `{"type":"unknown_kind","name":"x"}`. -/
def unknownItem : GenericItem :=
  .map [("type", .str "unknown_kind"), ("name", .str "x")]


/-- The event of the scenario
`{"type":"event","name":"pkg::events::Transfer","members":[{"name":"from","type":"core::address"}]}`. -/
def scenarioEvent : GenericItem :=
  .map [("type", .str "event"), ("name", .str "pkg::events::Transfer"),
        ("members", .arr [.obj [("name", .str "from"), ("type", .str "core::address")]])]

/-- The interface of the scenario, with the function `balance_of`, followed by
a function `ping` that has neither inputs nor outputs. -/
def scenarioInterface : GenericItem :=
  .map [("type", .str "interface"), ("name", .str "I"),
        ("items", .arr [
          .obj [("type", .str "function"), ("name", .str "balance_of"),
                ("inputs", .arr [.obj [("name", .str "account"), ("type", .str "core::address")]]),
                ("outputs", .arr [.obj [("type", .str "core::u256")]]),
                ("state_mutability", .str "view")],
          .obj [("type", .str "function"), ("name", .str "ping"),
                ("inputs", .arr []), ("outputs", .arr []),
                ("state_mutability", .str "external")]])]

/-- The payload of the event scenario, an array with one item. -/
def arrayPayload : String :=
  "[\x7b\"type\":\"event\",\"name\":\"pkg::events::Transfer\",\"members\":[\x7b\"name\":\"from\",\"type\":\"core::address\"\x7d]\x7d]"

/-- The payload `arrayPayload` encoded once more, as a JSON string. -/
def stringPayload : String :=
  "\"[\x7b\\\"type\\\":\\\"event\\\",\\\"name\\\":\\\"pkg::events::Transfer\\\",\\\"members\\\":[\x7b\\\"name\\\":\\\"from\\\",\\\"type\\\":\\\"core::address\\\"\x7d]\x7d]\""

/-- A scanner that knows four texts: the two sample payloads, the JSON string
`"hello"`, and the JSON number `5`. -/
def sampleParse (text : String) : Option Json :=
  if text = arrayPayload then
    some (.arr [.obj [("type", .str "event"), ("name", .str "pkg::events::Transfer"),
      ("members", .arr [.obj [("name", .str "from"), ("type", .str "core::address")]])]])
  else if text = stringPayload then some (.str arrayPayload)
  else if text = "\"hello\"" then some (.str "hello")
  else if text = "5" then some (.num "5")
  else none

/-! ## Lemmas on splitting -/

theorem splitSep_ne_nil (l : List Char) : splitSep l ≠ [] := by
  induction l using splitSep.induct with
  | case1 => simp [splitSep]
  | case2 rest _ => simp [splitSep]
  | case3 c rest hne h1 ih => exact absurd h1 ih
  | case4 c rest hne p ps h1 ih => rw [splitSep.eq_3 c rest hne, h1]; simp

/-- A non-empty first part starts with the first character of the text. -/
theorem splitSep_head_cons (a : Char) (q : List Char) (ps : List (List Char)) :
    ∀ l : List Char, splitSep l = (a :: q) :: ps → ∃ r, l = a :: r := by
  intro l
  induction l using splitSep.induct with
  | case1 => intro h; simp [splitSep] at h
  | case2 rest _ => intro h; simp [splitSep] at h
  | case3 c rest hne h1 ih => exact absurd h1 (splitSep_ne_nil rest)
  | case4 c rest hne p ps1 h1 ih =>
    intro h
    rw [splitSep.eq_3 c rest hne, h1] at h
    simp at h
    exact ⟨rest, by rw [h.1.1]⟩

/-- No part returned by the split contains the separator. -/
theorem splitSep_no_sep (l : List Char) : ∀ p ∈ splitSep l, hasSep p = false := by
  induction l using splitSep.induct with
  | case1 => intro p hp; simp [splitSep] at hp; subst hp; rfl
  | case2 rest ih =>
    intro p hp
    simp only [splitSep, List.mem_cons] at hp
    rcases hp with hp | hp
    · subst hp; rfl
    · exact ih p hp
  | case3 c rest hne h1 ih => exact absurd h1 (splitSep_ne_nil rest)
  | case4 c rest hne p ps h1 ih =>
    intro q hq
    rw [splitSep.eq_3 c rest hne, h1] at hq
    simp only [List.mem_cons] at hq
    rcases hq with hq | hq
    · subst hq
      have hp : hasSep p = false := ih p (by rw [h1]; simp)
      have hne2 : ∀ r : List Char, c = ':' → p = ':' :: r → False := by
        intro r hc hpr
        subst hpr
        obtain ⟨r2, hr2⟩ := splitSep_head_cons ':' r ps rest h1
        exact hne r2 hc hr2
      rw [hasSep.eq_3 c p hne2]
      exact hp
    · exact ih q (by rw [h1]; simp [hq])

theorem stringsSplit_length_pos (s : String) : 0 < (stringsSplit s).length := by
  unfold stringsSplit
  rw [List.length_map]
  exact List.length_pos.mpr (splitSep_ne_nil _)

/-- The last element read by the code is the final segment. -/
theorem stringsSplit_last (s : String) :
    (stringsSplit s)[(stringsSplit s).length - 1]? = some (finalSegment s) := by
  unfold finalSegment
  rw [← List.getLast?_eq_getElem?]
  cases h : (stringsSplit s).getLast? with
  | none =>
    have := stringsSplit_length_pos s
    rw [List.getLast?_eq_none_iff] at h
    rw [h] at this
    simp at this
  | some x => rfl

theorem finalSegment_mem (s : String) : finalSegment s ∈ stringsSplit s := by
  have h := stringsSplit_last s
  rw [List.getElem?_eq_some_iff] at h
  obtain ⟨hlt, he⟩ := h
  rw [← he]
  exact List.getElem_mem _

theorem finalSegment_no_sep (s : String) : hasSep (finalSegment s).toList = false := by
  have h := finalSegment_mem s
  unfold stringsSplit at h
  rw [List.mem_map] at h
  obtain ⟨p, hp, hpe⟩ := h
  rw [← hpe]
  exact splitSep_no_sep _ p hp

/-- A key that contains the separator is never found from a final segment, so
the six-entry map answers as the three-entry table does. -/
theorem lookup_typeMappings (seg : String) (h : hasSep seg.toList = false) :
    typeMappings.lookup seg = shortNames.lookup seg := by
  have h1 : (seg == "core::felt252") = false := by
    rw [beq_eq_false_iff_ne]; intro he; subst he; revert h; decide
  have h2 : (seg == "core::address") = false := by
    rw [beq_eq_false_iff_ne]; intro he; subst he; revert h; decide
  have h3 : (seg == "core::u256") = false := by
    rw [beq_eq_false_iff_ne]; intro he; subst he; revert h; decide
  simp [typeMappings, shortNames, List.lookup, h1, h2, h3]

theorem TypeToReadableName_eq (typ : String) :
    TypeToReadableName typ = (shortNames.lookup (finalSegment typ)).getD typ := by
  have hpos := stringsSplit_length_pos typ
  have hlast := stringsSplit_last typ
  have hget : (stringsSplit typ)[(stringsSplit typ).length - 1] = finalSegment typ := by
    rw [List.getElem?_eq_getElem (by omega)] at hlast
    exact Option.some.inj hlast
  unfold TypeToReadableName
  simp only [gt_iff_lt, hpos, dite_true, hget]
  rw [lookup_typeMappings _ (finalSegment_no_sep typ)]
  cases shortNames.lookup (finalSegment typ) <;> rfl

/-! ## Properties of `TypeToReadableName` -/

/-- C1: `TypeToReadableName typ` is the entry of the three-entry table
`felt252 -> Felt252`, `address -> ContractAddress`, `u256 -> U256` at the final
`::`-delimited segment of `typ` when that segment is a key, and `typ` itself,
unchanged, otherwise; so `foo::bar::baz` is returned as it is, and the three
`core::` entries of the map of the code never change a result. -/
theorem TypeToReadableName_table (typ : String) :
    TypeToReadableName typ
        = (match shortNames.lookup (finalSegment typ) with
           | some name => name
           | none => typ)
      ∧ TypeToReadableName "foo::bar::baz" = "foo::bar::baz"
      ∧ TypeToReadableName "core::felt252" = "Felt252"
      ∧ TypeToReadableName "x::address" = "ContractAddress"
      ∧ TypeToReadableName "u256" = "U256" := by
  refine ⟨?_, by decide, by decide, by decide, by decide⟩
  rw [TypeToReadableName_eq]
  cases shortNames.lookup (finalSegment typ) <;> rfl


/-! ## Lemmas on the rendering loops -/

theorem foldl_append_singleton {α β : Type} (f : α → β) (l : List α) (init : List β) :
    l.foldl (fun acc x => acc ++ [f x]) init = init ++ l.map f := by
  induction l generalizing init with
  | nil => simp
  | cons x xs ih => simp [ih]

theorem memberTexts_eq (members : List Member) :
    memberTexts members
      = members.map (fun m => m.Name ++ ": " ++ TypeToReadableName m.Typ) := by
  unfold memberTexts
  rw [foldl_append_singleton (fun m : Member => sprintfPair m.Name (TypeToReadableName m.Typ))]
  simp [sprintfPair]

theorem outputTexts_eq (outputs : List Output) :
    outputTexts outputs = outputs.map (fun o => TypeToReadableName o.Typ) := by
  unfold outputTexts
  rw [foldl_append_singleton (fun o : Output => TypeToReadableName o.Typ)]
  simp

theorem interfaceLines_eq (i : InterfaceType) :
    interfaceLines i = i.Items.map (fun f => Out.stdout (functionLine f)) := by
  unfold interfaceLines
  rw [foldl_append_singleton (fun f : Function => Out.stdout (functionLine f))]
  simp

theorem eventLines_eq (event : EventType) :
    eventLines event
      = some [Out.stdout ("Event: " ++ finalSegment event.Name ++ "("
          ++ stringsJoin (memberTexts event.Members) ++ ")")] := by
  unfold eventLines
  simp only [stringsSplit_last]

theorem tagIs_event_not_interface (tag : Option Json) (h : tagIs tag "event" = true) :
    tagIs tag "interface" = false := by
  unfold tagIs at *
  split at h
  · rename_i s
    simp only [beq_iff_eq] at h
    subst h
    decide
  · exact absurd h (by simp)

theorem processItem_interface (item : GenericItem) (h : tagIs (itemTag item) "interface" = true) :
    processItem item = some ((decodeInterface item).elim [] interfaceLines) := by
  unfold processItem decodeInterface
  cases item <;> simp only [jsonMarshal, h, if_true] <;> split <;> simp_all

theorem processItem_event (item : GenericItem) (h : tagIs (itemTag item) "event" = true) :
    processItem item = (decodeEvent item).elim (some []) eventLines := by
  have h2 := tagIs_event_not_interface _ h
  unfold processItem decodeEvent
  cases item <;> simp only [jsonMarshal, h, h2, if_true] <;> simp <;> split <;> simp_all

theorem processItem_default (item : GenericItem) (h : rendersTag item = false) :
    processItem item = some [] := by
  unfold rendersTag at h
  simp only [Bool.or_eq_false_iff] at h
  unfold processItem
  cases item <;> simp [jsonMarshal, h.1, h.2]


theorem processItem_ne_none (item : GenericItem) : processItem item ≠ none := by
  by_cases hi : tagIs (itemTag item) "interface" = true
  · rw [processItem_interface item hi]; simp
  · by_cases he : tagIs (itemTag item) "event" = true
    · rw [processItem_event item he]
      cases decodeEvent item with
      | none => simp
      | some event => simp [eventLines_eq]
    · rw [processItem_default item (by simp [rendersTag, hi, he])]; simp

theorem processItems_cons (item : GenericItem) (rest : List GenericItem) :
    processItems (item :: rest)
      = ⟨(processItem item).getD [] ++ (processItems rest).out, (processItems rest).exit⟩ := by
  cases h : processItem item with
  | none => exact absurd h (processItem_ne_none item)
  | some o => simp [processItems, h]

theorem processItems_exit (items : List GenericItem) :
    (processItems items).exit = Exit.returned := by
  induction items with
  | nil => rfl
  | cons item rest ih => rw [processItems_cons]; exact ih

theorem processItems_out_append (xs ys : List GenericItem) :
    (processItems (xs ++ ys)).out = (processItems xs).out ++ (processItems ys).out := by
  induction xs with
  | nil => simp [processItems]
  | cons item rest ih =>
    rw [List.cons_append, processItems_cons, processItems_cons]
    simp [ih]

theorem run_ext (r s : Run) (h1 : r.out = s.out) (h2 : r.exit = s.exit) : r = s := by
  cases r; cases s; simp_all

/-! ## Properties of the rendering -/

/-- C2: for an item tagged `event` that decodes to an event with name `n` and
members `m1..mk`, the loop body writes exactly one line,
`Event: s(m1.name: T1, ..., mk.name: Tk)`, where `s` is the last
`::`-delimited segment of `n`, `Ti` is `TypeToReadableName` of the type of
`mi`, and the members are joined by a comma and a blank in their order. -/
theorem event_line_format (item : GenericItem) (event : EventType)
    (htag : tagIs (itemTag item) "event" = true)
    (hdec : decodeEvent item = some event) :
    processItem item
      = some [Out.stdout ("Event: " ++ finalSegment event.Name ++ "("
          ++ ", ".intercalate
              (event.Members.map (fun m => m.Name ++ ": " ++ TypeToReadableName m.Typ))
          ++ ")")] := by
  rw [processItem_event item htag, hdec]
  simp only [Option.elim, eventLines_eq, memberTexts_eq, stringsJoin]

/-- The scenario `pkg::events::Transfer` with the member `from` of type
`core::address` is written as `Event: Transfer(from: ContractAddress)`. -/
theorem event_line_format_witness :
    tagIs (itemTag scenarioEvent) "event" = true
      ∧ decodeEvent scenarioEvent
          = some ⟨⟨"event", "pkg::events::Transfer"⟩, [⟨"from", "core::address"⟩]⟩
      ∧ processItem scenarioEvent
          = some [Out.stdout "Event: Transfer(from: ContractAddress)"] :=
  ⟨by decide, by decide,
   (event_line_format scenarioEvent
      ⟨⟨"event", "pkg::events::Transfer"⟩, [⟨"from", "core::address"⟩]⟩
      (by decide) (by decide)).trans (by decide)⟩

/-- C3: for an item tagged `interface` that decodes to an interface, the loop
body writes one line per function of `items`, in their order, and the line of
the function `f` is
`Function: f.name(I) -> (O) [State Mutability: f.state_mutability]`, where `I`
is the inputs written `name: TypeToReadableName(type)` and `O` the outputs
written `TypeToReadableName(type)`, each joined by a comma and a blank in
their order (the empty text for an empty sequence). -/
theorem function_line_format (item : GenericItem) (i : InterfaceType)
    (htag : tagIs (itemTag item) "interface" = true)
    (hdec : decodeInterface item = some i) :
    processItem item
      = some (i.Items.map (fun f => Out.stdout
          ("Function: " ++ f.Name ++ "("
            ++ ", ".intercalate
                (f.Inputs.map (fun m => m.Name ++ ": " ++ TypeToReadableName m.Typ))
            ++ ") -> ("
            ++ ", ".intercalate (f.Outputs.map (fun o => TypeToReadableName o.Typ))
            ++ ") [State Mutability: " ++ f.StateMutability ++ "]"))) := by
  rw [processItem_interface item htag, hdec]
  simp only [Option.elim, interfaceLines_eq, functionLine, memberTexts_eq, outputTexts_eq,
    stringsJoin]

/-- The scenario `balance_of`, and a function without inputs and outputs,
whose parentheses enclose the empty text. -/
theorem function_line_format_witness :
    tagIs (itemTag scenarioInterface) "interface" = true
      ∧ decodeInterface scenarioInterface
          = some ⟨⟨"interface", "I"⟩,
              [⟨"function", "balance_of", [⟨"account", "core::address"⟩], [⟨"core::u256"⟩],
                 "view"⟩,
               ⟨"function", "ping", [], [], "external"⟩]⟩
      ∧ processItem scenarioInterface
          = some [Out.stdout
                    "Function: balance_of(account: ContractAddress) -> (U256) [State Mutability: view]",
                  Out.stdout "Function: ping() -> () [State Mutability: external]"] :=
  ⟨by decide, by decide,
   (function_line_format scenarioInterface
      ⟨⟨"interface", "I"⟩,
        [⟨"function", "balance_of", [⟨"account", "core::address"⟩], [⟨"core::u256"⟩], "view"⟩,
         ⟨"function", "ping", [], [], "external"⟩]⟩
      (by decide) (by decide)).trans (by decide)⟩


/-! ## Properties of the payload normalizer -/

/-- C4: when the payload `p` is read directly as an array of items, and the
payload `q` is not read as an array but is read as a string whose contents are
`p`, the first part of `GetParsedAbi` fills `abi` with the same item sequence
for `q` as for `p`, and the two calls have the same effects. -/
theorem double_encoding_same_items (parse : String → Option Json) (p q : String)
    (items : List GenericItem)
    (hp : unmarshalAbi parse p = some items)
    (hq : unmarshalAbi parse q = none)
    (hs : unmarshalString parse q = some p) :
    normalizePayload parse p = .ok items
      ∧ normalizePayload parse q = .ok items
      ∧ GetParsedAbi parse q = GetParsedAbi parse p := by
  have h1 : normalizePayload parse p = .ok items := by
    simp only [normalizePayload, hp]
  have h2 : normalizePayload parse q = .ok items := by
    simp only [normalizePayload, hq, hs, hp]
  exact ⟨h1, h2, by simp only [GetParsedAbi, h1, h2]⟩

/-- The event scenario, as an array and encoded once more as a string. -/
theorem double_encoding_same_items_witness :
    unmarshalAbi sampleParse arrayPayload = some [scenarioEvent]
      ∧ unmarshalAbi sampleParse stringPayload = none
      ∧ unmarshalString sampleParse stringPayload = some arrayPayload
      ∧ normalizePayload sampleParse arrayPayload = .ok [scenarioEvent]
      ∧ normalizePayload sampleParse stringPayload = .ok [scenarioEvent]
      ∧ GetParsedAbi sampleParse stringPayload = GetParsedAbi sampleParse arrayPayload :=
  ⟨rfl, rfl, rfl,
   double_encoding_same_items sampleParse arrayPayload stringPayload [scenarioEvent]
     rfl rfl rfl⟩

/-- C5: `GetParsedAbi` stops with `log.Fatalf` exactly when the payload is not
read as an array of items and is not read as a string whose contents are read
as an array of items; and when it stops so, it has written nothing. A text
that is not JSON, and a string whose contents are not an array, are such
payloads. -/
theorem fatal_iff_malformed_payload (parse : String → Option Json) (payload : String) :
    ((∃ msg, (GetParsedAbi parse payload).exit = Exit.fatal msg)
        ↔ (unmarshalAbi parse payload = none
            ∧ ∀ str, unmarshalString parse payload = some str → unmarshalAbi parse str = none))
      ∧ (∀ msg, (GetParsedAbi parse payload).exit = Exit.fatal msg
            → (GetParsedAbi parse payload).out = [])
      ∧ GetParsedAbi sampleParse "not json" = ⟨[], Exit.fatal "Error unmarshalling ABI"⟩
      ∧ GetParsedAbi sampleParse "5" = ⟨[], Exit.fatal "Error unmarshalling ABI"⟩
      ∧ GetParsedAbi sampleParse "\"hello\"" = ⟨[], Exit.fatal "Error parsing ABI string"⟩
      ∧ GetParsedAbi sampleParse stringPayload
          = ⟨[Out.stdout "Event: Transfer(from: ContractAddress)"], Exit.returned⟩ := by
  refine ⟨?_, ?_, by decide, by decide, by decide, by decide⟩
  · unfold GetParsedAbi normalizePayload
    cases h1 : unmarshalAbi parse payload with
    | some abi => simp [processItems_exit]
    | none =>
      cases h2 : unmarshalString parse payload with
      | none => simp
      | some str =>
        cases h3 : unmarshalAbi parse str with
        | none => simp [h3]
        | some abi => simp [h3, processItems_exit]
  · intro msg
    unfold GetParsedAbi
    cases normalizePayload parse payload with
    | error m => simp
    | ok abi => simp [processItems_exit]


/-! ## Lemmas on the decoding of one item -/

theorem mem_insertKey (e x : String × Json) (l : List (String × Json))
    (h : x ∈ insertKey e l) : x = e ∨ x ∈ l := by
  induction l with
  | nil => simp [insertKey] at h; exact Or.inl h
  | cons y ys ih =>
    simp only [insertKey] at h
    split at h
    · simpa using h
    · simp only [List.mem_cons] at h ⊢
      rcases h with h | h
      · exact Or.inr (Or.inl h)
      · rcases ih h with h | h
        · exact Or.inl h
        · exact Or.inr (Or.inr h)

theorem mem_sortKeys (x : String × Json) (l : List (String × Json))
    (h : x ∈ sortKeys l) : x ∈ l := by
  induction l with
  | nil => simp [sortKeys] at h
  | cons y ys ih =>
    simp only [sortKeys] at h
    rcases mem_insertKey _ _ _ h with h | h
    · simp [h]
    · exact List.mem_cons_of_mem _ (ih h)

theorem mem_dedupLast (x : String × Json) (l : List (String × Json))
    (h : x ∈ dedupLast l) : x ∈ l := by
  induction l with
  | nil => simp [dedupLast] at h
  | cons y ys ih =>
    obtain ⟨k, v⟩ := y
    simp only [dedupLast] at h
    split at h
    · exact List.mem_cons_of_mem _ (ih h)
    · simp only [List.mem_cons] at h ⊢
      rcases h with h | h
      · exact Or.inl h
      · exact Or.inr (ih h)

theorem mem_reencodeMembers (x : String × Json) (l : List (String × Json))
    (h : x ∈ reencodeMembers l) : ∃ y ∈ l, y.1 = x.1 := by
  induction l with
  | nil => simp [reencodeMembers] at h
  | cons y ys ih =>
    obtain ⟨k, v⟩ := y
    simp only [reencodeMembers, List.mem_cons] at h
    rcases h with h | h
    · exact ⟨(k, v), by simp, by rw [h]⟩
    · obtain ⟨z, hz, hz1⟩ := ih h
      exact ⟨z, List.mem_cons_of_mem _ hz, hz1⟩

/-- The keys written by `json.Marshal` are keys of the map. -/
theorem marshalled_key (x : String × Json) (l : List (String × Json))
    (h : x ∈ sortKeys (dedupLast (reencodeMembers l))) : ∃ y ∈ l, y.1 = x.1 :=
  mem_reencodeMembers x l (mem_dedupLast x _ (mem_sortKeys x _ h))

/-- A key that does not match `name` is not stored into the field `name`. -/
theorem findField_event_not_name (k f : String) (hk : equalFold "name" k = false)
    (hf : findField eventFields k = some f) : f ≠ "name" := by
  intro hfn
  subst hfn
  have hne : ("name" == k) = false := by
    cases hb : ("name" == k) with
    | false => rfl
    | true =>
      have : k = "name" := (beq_iff_eq.mp hb).symm
      subst this
      exact absurd hk (by decide)
  unfold findField eventFields at hf
  simp only [List.find?, hne, hk] at hf
  cases h1 : ("type" == k) <;> cases h2 : ("members" == k) <;>
    cases h3 : equalFold "type" k <;> cases h4 : equalFold "members" k <;>
    simp [h1, h2, h3, h4] at hf

theorem store_event_keeps_name (f : String) (hf : f ≠ "name") (cur r : EventCell) (v : Json)
    (h : EventCell.store f cur v = some r) : r.Name = cur.Name := by
  unfold EventCell.store at h
  simp only [hf, if_false] at h
  split at h
  · simp only [Option.map_eq_some'] at h
    obtain ⟨a, _, ha⟩ := h
    rw [← ha]
  · split at h
    · simp only [Option.map_eq_some'] at h
      obtain ⟨a, _, ha⟩ := h
      rw [← ha]
    · simp only [Option.some.injEq] at h
      rw [h]

theorem decodeMembers_event_keeps_name (ms : List (String × Json))
    (hms : ∀ e ∈ ms, equalFold "name" e.1 = false) (cur r : EventCell)
    (h : decodeMembers eventFields EventCell.store cur ms = some r) : r.Name = cur.Name := by
  induction ms generalizing cur with
  | nil => simp only [decodeMembers, Option.some.injEq] at h; rw [h]
  | cons e rest ih =>
    obtain ⟨k, v⟩ := e
    have hk : equalFold "name" k = false := hms (k, v) (by simp)
    have hrest : ∀ e ∈ rest, equalFold "name" e.1 = false :=
      fun e he => hms e (List.mem_cons_of_mem _ he)
    simp only [decodeMembers] at h
    cases hf : findField eventFields k with
    | none => simp only [hf] at h; exact ih hrest cur h
    | some f =>
      simp only [hf] at h
      cases hs : EventCell.store f cur v with
      | none => simp [hs] at h
      | some next =>
        simp only [hs] at h
        have h1 := ih hrest next h
        rw [h1]
        exact store_event_keeps_name f (findField_event_not_name k f hk hf) cur next v hs

/-- An event decoded from an item without `name` has the empty name. -/
theorem decodeEvent_nameless (item : GenericItem) (event : EventType)
    (hname : lacksField "name" item = true) (hdec : decodeEvent item = some event) :
    event.Name = "" := by
  cases item with
  | nil =>
    simp only [decodeEvent, jsonMarshal, unmarshalEventType, decodeStruct, Option.map_some',
      Option.some.injEq] at hdec
    rw [← hdec]
    rfl
  | map members =>
    simp only [decodeEvent, jsonMarshal, reencode, unmarshalEventType, decodeStruct,
      Option.map_eq_some'] at hdec
    obtain ⟨cell, hcell, hvalue⟩ := hdec
    have hkeys : ∀ e ∈ sortKeys (dedupLast (reencodeMembers members)),
        equalFold "name" e.1 = false := by
      intro e he
      obtain ⟨y, hy, hy1⟩ := marshalled_key e members he
      simp only [lacksField, List.all_eq_true, Bool.not_eq_true'] at hname
      rw [← hy1]
      exact hname y hy
    have hn := decodeMembers_event_keeps_name _ hkeys _ cell hcell
    rw [← hvalue]
    exact hn

theorem finalSegment_empty : finalSegment "" = "" := by decide

/-- The loop body writes lines only. -/
theorem processItem_no_diagnostic (item : GenericItem) :
    ∀ o ∈ itemEffects item, isDiagnostic o = false := by
  unfold itemEffects
  by_cases hi : tagIs (itemTag item) "interface" = true
  · rw [processItem_interface item hi]
    cases decodeInterface item with
    | none => simp
    | some i =>
      simp only [Option.elim, interfaceLines_eq, Option.getD_some, List.mem_map]
      rintro o ⟨f, _, rfl⟩
      rfl
  · by_cases he : tagIs (itemTag item) "event" = true
    · rw [processItem_event item he]
      cases decodeEvent item with
      | none => simp
      | some event =>
        simp only [Option.elim, eventLines_eq, Option.getD_some, List.mem_singleton]
        rintro o rfl
        rfl
    · rw [processItem_default item (by simp [rendersTag, hi, he])]; simp

theorem processItems_no_diagnostic (items : List GenericItem) :
    ∀ o ∈ (processItems items).out, isDiagnostic o = false := by
  induction items with
  | nil => simp [processItems]
  | cons item rest ih =>
    rw [processItems_cons]
    intro o ho
    simp only [List.mem_append] at ho
    rcases ho with ho | ho
    · exact processItem_no_diagnostic item o ho
    · exact ih o ho

theorem processItems_out_insert (xs ys : List GenericItem) (item : GenericItem) :
    (processItems (xs ++ item :: ys)).out
      = (processItems xs).out ++ itemEffects item ++ (processItems ys).out := by
  rw [processItems_out_append, processItems_cons]
  simp [itemEffects]


theorem processItems_out_flatten (items : List GenericItem) :
    (processItems items).out = (items.map itemEffects).flatten := by
  induction items with
  | nil => simp [processItems]
  | cons item rest ih => rw [processItems_cons]; simp [ih, itemEffects]

theorem isFunctionLine_functionLine (f : Function) :
    isFunctionLine (Out.stdout (functionLine f)) = true := by
  simp only [isFunctionLine, functionLine, String.toList, String.data_append,
    List.append_assoc]
  rw [List.isPrefixOf_iff_prefix]
  exact ⟨_, rfl⟩

theorem countP_functionLines (fs : List Function) :
    (fs.map (fun f => Out.stdout (functionLine f))).countP isFunctionLine = fs.length := by
  induction fs with
  | nil => rfl
  | cons f rest ih =>
    rw [List.map_cons, List.countP_cons_of_pos _ _ (isFunctionLine_functionLine f), ih]
    rfl

theorem isFunctionLine_event (a b : String) :
    isFunctionLine (Out.stdout ("Event: " ++ a ++ "(" ++ b ++ ")")) = false := by
  simp only [isFunctionLine, String.toList, String.data_append, List.append_assoc]
  rfl

/-- The number of lines of one item that begin with `Function: `. -/
theorem countP_itemEffects (item : GenericItem) :
    (itemEffects item).countP isFunctionLine = functionCount item := by
  unfold itemEffects functionCount
  by_cases hi : tagIs (itemTag item) "interface" = true
  · rw [processItem_interface item hi]
    simp only [hi, if_true]
    cases decodeInterface item with
    | none => rfl
    | some i =>
      simp only [Option.elim, interfaceLines_eq, Option.getD_some]
      exact countP_functionLines i.Items
  · simp only [hi, Bool.false_eq_true, if_false]
    by_cases he : tagIs (itemTag item) "event" = true
    · rw [processItem_event item he]
      cases decodeEvent item with
      | none => rfl
      | some event =>
        simp only [Option.elim, eventLines_eq, Option.getD_some, List.countP_cons,
          List.countP_nil, isFunctionLine_event]
        rfl
    · rw [processItem_default item (by simp [rendersTag, hi, he])]; rfl

/-! ## Properties of the loop over the items -/

/-- C6, as stated, fails on the code: an item tagged `event` without `name`
is decoded with the empty name; the item below writes one line,
`Event: (from: ContractAddress)`, and no diagnostic, instead of no line and
one diagnostic; its siblings are rendered. -/
theorem nameless_event_counterexample :
    tagIs (itemTag namelessEvent) "event" = true
      ∧ lacksField "name" namelessEvent = true
      ∧ itemEffects namelessEvent = [Out.stdout "Event: (from: ContractAddress)"]
      ∧ ¬ ((itemEffects namelessEvent).countP isLine = 0
            ∧ (itemEffects namelessEvent).countP isDiagnostic = 1)
      ∧ processItems [scenarioEvent, namelessEvent]
          = ⟨[Out.stdout "Event: Transfer(from: ContractAddress)",
              Out.stdout "Event: (from: ContractAddress)"], Exit.returned⟩ := by
  decide

/-- C6, amended: an item tagged `event` that has no key equal to `name` in any
letter case (`encoding/json` stores a key into the field whose name it matches
when case is ignored, so a key such as `NAME` would give the event a name) and
that decodes into an `EventType` has the empty name there; it writes exactly
one line, `Event: (m1.name: T1, ..., mk.name: Tk)` with the empty shortname,
and no diagnostic, and in every sequence the effects of the items before and
after it are written around that line, the call returning normally. -/
theorem nameless_event_renders (xs ys : List GenericItem) (item : GenericItem)
    (event : EventType)
    (htag : tagIs (itemTag item) "event" = true)
    (hname : lacksField "name" item = true)
    (hdec : decodeEvent item = some event) :
    event.Name = ""
      ∧ itemEffects item
          = [Out.stdout ("Event: (" ++ ", ".intercalate
              (event.Members.map (fun m => m.Name ++ ": " ++ TypeToReadableName m.Typ))
              ++ ")")]
      ∧ (itemEffects item).countP isLine = 1
      ∧ (itemEffects item).countP isDiagnostic = 0
      ∧ (processItems (xs ++ item :: ys)).out
          = (processItems xs).out ++ itemEffects item ++ (processItems ys).out
      ∧ (processItems (xs ++ item :: ys)).exit = Exit.returned := by
  have hn := decodeEvent_nameless item event hname hdec
  have he : itemEffects item
      = [Out.stdout ("Event: (" ++ ", ".intercalate
          (event.Members.map (fun m => m.Name ++ ": " ++ TypeToReadableName m.Typ))
          ++ ")")] := by
    unfold itemEffects
    rw [processItem_event item htag, hdec]
    simp only [Option.elim, eventLines_eq, memberTexts_eq, stringsJoin, Option.getD_some, hn,
      finalSegment_empty]
    rw [show ("Event: " ++ "" ++ "(" : String) = "Event: (" from by decide]
  refine ⟨hn, he, ?_, ?_, processItems_out_insert xs ys item, processItems_exit _⟩
  · rw [he]; rfl
  · rw [he]; rfl

/-- The event without `name` of the counterexample, between two siblings. -/
theorem nameless_event_renders_witness :
    tagIs (itemTag namelessEvent) "event" = true
      ∧ lacksField "name" namelessEvent = true
      ∧ decodeEvent namelessEvent = some ⟨⟨"event", ""⟩, [⟨"from", "core::address"⟩]⟩
      ∧ itemEffects namelessEvent
          = [Out.stdout ("Event: (" ++ ", ".intercalate
              ([(⟨"from", "core::address"⟩ : Member)].map
                (fun m => m.Name ++ ": " ++ TypeToReadableName m.Typ)) ++ ")")]
      ∧ (processItems ([scenarioEvent] ++ namelessEvent :: [scenarioInterface])).out
          = (processItems [scenarioEvent]).out ++ itemEffects namelessEvent
              ++ (processItems [scenarioInterface]).out :=
  have h := nameless_event_renders [scenarioEvent] [scenarioInterface] namelessEvent
    ⟨⟨"event", ""⟩, [⟨"from", "core::address"⟩]⟩ (by decide) (by decide) (by decide)
  ⟨by decide, by decide, by decide, h.2.1, h.2.2.2.2.1⟩

/-- C7: an item whose `type` tag is neither `interface` nor `event` (an unknown
tag, no tag, a tag that is not a string, the nil map, and also `struct`, `impl`
and `enum`) has no effect at all, neither line nor diagnostic, and the loop
goes on: the effects and the end of the loop over any item sequence are those
of the loop over the sequence without these items. -/
theorem other_tags_inert (items : List GenericItem) :
    processItems items = processItems (items.filter rendersTag)
      ∧ (∀ item, rendersTag item = false → processItem item = some [])
      ∧ rendersTag unknownItem = false
      ∧ rendersTag GenericItem.nil = false
      ∧ rendersTag (GenericItem.map [("name", Json.str "x")]) = false
      ∧ rendersTag (GenericItem.map [("type", Json.num "1")]) = false
      ∧ rendersTag (GenericItem.map [("type", Json.arr [Json.str "event"])]) = false
      ∧ rendersTag (GenericItem.map [("type", Json.str "struct")]) = false
      ∧ rendersTag (GenericItem.map [("type", Json.str "impl")]) = false
      ∧ rendersTag (GenericItem.map [("type", Json.str "enum")]) = false
      ∧ processItems [unknownItem, scenarioEvent, GenericItem.nil]
          = ⟨[Out.stdout "Event: Transfer(from: ContractAddress)"], Exit.returned⟩ := by
  refine ⟨?_, fun item h => processItem_default item h, by decide, by decide, by decide,
    by decide, by decide, by decide, by decide, by decide, by decide⟩
  apply run_ext
  · induction items with
    | nil => rfl
    | cons item rest ih =>
      cases hr : rendersTag item with
      | false =>
        rw [List.filter_cons_of_neg (by simp [hr]), processItems_cons,
          processItem_default item hr, ← ih]
        rfl
      | true =>
        rw [List.filter_cons_of_pos hr, processItems_cons, processItems_cons, ih]
  · rw [processItems_exit, processItems_exit]

/-- C8: an item tagged `interface` or `event` whose decoding into
`InterfaceType` or `EventType` reports an error writes nothing, and the loop
goes on: in every sequence, the effects and the end of the loop are those of
the loop over the sequence without that item. -/
theorem malformed_item_skipped (xs ys : List GenericItem) (item : GenericItem)
    (h : (tagIs (itemTag item) "interface" = true ∧ decodeInterface item = none)
          ∨ (tagIs (itemTag item) "event" = true ∧ decodeEvent item = none)) :
    processItem item = some []
      ∧ processItems (xs ++ item :: ys) = processItems (xs ++ ys) := by
  have h1 : processItem item = some [] := by
    rcases h with ⟨ht, hd⟩ | ⟨ht, hd⟩
    · rw [processItem_interface item ht, hd]; rfl
    · rw [processItem_event item ht, hd]; rfl
  refine ⟨h1, run_ext _ _ ?_ ?_⟩
  · rw [processItems_out_insert, processItems_out_append]
    simp [itemEffects, h1]
  · rw [processItems_exit, processItems_exit]

/-- An event whose `members` is a number, between the two scenario items. -/
theorem malformed_item_skipped_witness :
    ((tagIs (itemTag malformedEvent) "interface" = true
          ∧ decodeInterface malformedEvent = none)
        ∨ (tagIs (itemTag malformedEvent) "event" = true ∧ decodeEvent malformedEvent = none))
      ∧ processItem malformedEvent = some []
      ∧ processItems ([scenarioEvent] ++ malformedEvent :: [scenarioInterface])
          = processItems ([scenarioEvent] ++ [scenarioInterface]) :=
  ⟨by decide,
   malformed_item_skipped [scenarioEvent] [scenarioInterface] malformedEvent (by decide)⟩

/-- The same for an interface whose `items` is a string. -/
theorem malformed_interface_skipped :
    tagIs (itemTag malformedInterface) "interface" = true
      ∧ decodeInterface malformedInterface = none
      ∧ processItems [malformedInterface, scenarioEvent] = processItems [scenarioEvent] := by
  decide

/-- A key that differs from `name` by the case of its letters is stored into
the field `Name`: the event `{"type":"event","NAME":"pkg::X","members":[]}`
has a name. -/
theorem uppercase_name_key_renders :
    lacksField "name"
        (GenericItem.map [("type", Json.str "event"), ("NAME", Json.str "pkg::X"),
          ("members", Json.arr [])]) = false
      ∧ processItem
          (GenericItem.map [("type", Json.str "event"), ("NAME", Json.str "pkg::X"),
            ("members", Json.arr [])])
          = some [Out.stdout "Event: X()"] := by
  decide

/-- A slot left in the spare capacity of `Members` is used again: the keys
`MEMBERS`, `Members` and `members` are stored in this order into the same
field, the second cuts the slice to one element, and the third stores its
second element into the slot that still holds the type `felt252`. -/
theorem spare_slot_reused :
    processItem
        (GenericItem.map [("type", Json.str "event"), ("name", Json.str "E"),
          ("MEMBERS", Json.arr [Json.obj [("name", Json.str "x"), ("type", Json.str "t")],
            Json.obj [("name", Json.str "y"), ("type", Json.str "felt252")]]),
          ("Members", Json.arr [Json.obj []]),
          ("members", Json.arr [Json.obj [("name", Json.str "a"), ("type", Json.str "u256")],
            Json.obj [("name", Json.str "z")]])])
      = some [Out.stdout "Event: E(a: U256, z: Felt252)"] := by
  decide

/-- C9: the effects of the loop over `xs ++ ys` are the effects for `xs`
followed by the effects for `ys`, so that the effects of a sequence are those
of its items one after the other in the order of the sequence; and an item
tagged `interface` that decodes writes the lines of its functions in the order
of its `items`. -/
theorem rendering_preserves_order (xs ys : List GenericItem) :
    (processItems (xs ++ ys)).out = (processItems xs).out ++ (processItems ys).out
      ∧ (processItems xs).out = (xs.map itemEffects).flatten
      ∧ (∀ (item : GenericItem) (i : InterfaceType),
          tagIs (itemTag item) "interface" = true → decodeInterface item = some i →
            itemEffects item = i.Items.map (fun f => Out.stdout (functionLine f)))
      ∧ (processItems [scenarioEvent, scenarioInterface]).out
          = [Out.stdout "Event: Transfer(from: ContractAddress)",
             Out.stdout
               "Function: balance_of(account: ContractAddress) -> (U256) [State Mutability: view]",
             Out.stdout "Function: ping() -> () [State Mutability: external]"] := by
  refine ⟨processItems_out_append xs ys, processItems_out_flatten xs, ?_, by decide⟩
  intro item i ht hd
  unfold itemEffects
  rw [processItem_interface item ht, hd]
  simp only [Option.elim, interfaceLines_eq, Option.getD_some]

/-- C10: for every item sequence, the number of written lines that begin with
`Function: ` is the sum, over the items tagged `interface` that decode, of the
length of their `items` (`functionCount` is zero for every other item). -/
theorem function_line_count (items : List GenericItem) :
    (processItems items).out.countP isFunctionLine = (items.map functionCount).sum
      ∧ functionCount scenarioInterface = 2
      ∧ functionCount scenarioEvent = 0
      ∧ functionCount malformedInterface = 0
      ∧ functionCount (GenericItem.map [("type", Json.str "interface"), ("items", Json.arr [])])
          = 0 := by
  refine ⟨?_, by decide, by decide, by decide, by decide⟩
  induction items with
  | nil => rfl
  | cons item rest ih =>
    rw [processItems_cons, List.countP_append, ih, List.map_cons, List.sum_cons]
    have := countP_itemEffects item
    unfold itemEffects at this
    rw [this]

/-! ## Lemmas on the final segment -/

/-- The test `hasSep` finds exactly the texts in which `::` occurs. -/
theorem hasSep_iff_occurs (l : List Char) : hasSep l = true ↔ "::".toList <:+: l := by
  induction l using hasSep.induct with
  | case1 => simp [hasSep, List.infix_nil]
  | case2 rest => simp only [hasSep, true_iff]; exact ⟨[], rest, rfl⟩
  | case3 c rest hne ih =>
    rw [hasSep.eq_3 c rest hne, ih, List.infix_cons_iff]
    constructor
    · exact fun h => Or.inr h
    · rintro (h | h)
      · obtain ⟨t, ht⟩ := h
        have h1 : (':' :: ':' :: t) = c :: rest := ht
        simp only [List.cons.injEq] at h1
        exact absurd h1.2.symm (fun h2 => hne t h1.1.symm h2)
      · exact h

theorem hasSep_false_of_absent (s : String) (h : ¬ ("::".toList <:+: s.toList)) :
    hasSep s.toList = false := by
  cases hb : hasSep s.toList with
  | false => rfl
  | true => exact absurd ((hasSep_iff_occurs _).mp hb) h

/-- A text that is returned as a single part is returned whole. -/
theorem splitSep_singleton (l p : List Char) (h : splitSep l = [p]) : p = l := by
  induction l using splitSep.induct generalizing p with
  | case1 => simp only [splitSep, List.cons.injEq, and_true] at h; exact h.symm
  | case2 rest _ =>
    simp only [splitSep, List.cons.injEq] at h
    exact absurd h.2 (splitSep_ne_nil rest)
  | case3 c rest hne h1 ih => exact absurd h1 (splitSep_ne_nil rest)
  | case4 c rest hne q qs h1 ih =>
    rw [splitSep.eq_3 c rest hne, h1] at h
    simp only [List.cons.injEq] at h
    obtain ⟨hq, hqs⟩ := h
    subst hqs
    rw [← hq, ih q h1]

/-- A text without separator is returned as a single part. -/
theorem splitSep_of_no_sep (l : List Char) (h : hasSep l = false) : splitSep l = [l] := by
  induction l using splitSep.induct with
  | case1 => rfl
  | case2 rest _ => simp [hasSep] at h
  | case3 c rest hne h1 ih => exact absurd h1 (splitSep_ne_nil rest)
  | case4 c rest hne q qs h1 ih =>
    have hne2 : ∀ r : List Char, c = ':' → rest = ':' :: r → False := hne
    rw [hasSep.eq_3 c rest hne2] at h
    have h2 := ih h
    rw [splitSep.eq_3 c rest hne, h2]

theorem stringsSplit_of_no_sep (s : String) (h : hasSep s.toList = false) :
    stringsSplit s = [s] := by
  unfold stringsSplit
  rw [splitSep_of_no_sep _ h]
  rfl

theorem finalSegment_of_no_sep (s : String) (h : hasSep s.toList = false) :
    finalSegment s = s := by
  unfold finalSegment
  rw [stringsSplit_of_no_sep s h]
  rfl

/-- The branch that `TypeToReadableName` takes: the guard holds, and the last
part is looked up in the map of the code. -/
theorem TypeToReadableName_guarded (typ : String) :
    TypeToReadableName typ = (typeMappings.lookup (finalSegment typ)).getD typ := by
  have hpos := stringsSplit_length_pos typ
  have hlast := stringsSplit_last typ
  have hget : (stringsSplit typ)[(stringsSplit typ).length - 1] = finalSegment typ := by
    rw [List.getElem?_eq_getElem (by omega)] at hlast
    exact Option.some.inj hlast
  unfold TypeToReadableName
  simp only [gt_iff_lt, hpos, dite_true, hget]
  cases typeMappings.lookup (finalSegment typ) <;> rfl

theorem shortNames_values (seg name : String) (h : shortNames.lookup seg = some name) :
    name = "Felt252" ∨ name = "ContractAddress" ∨ name = "U256" := by
  unfold shortNames at h
  simp only [List.lookup] at h
  cases h1 : (seg == "felt252") <;> cases h2 : (seg == "address") <;>
    cases h3 : (seg == "u256") <;> simp [h1, h2, h3] at h <;> simp [← h]

/-! ## Further properties of `TypeToReadableName` -/

/-- C11: type naming is idempotent, `TypeToReadableName (TypeToReadableName t)`
is `TypeToReadableName t` for every string `t`; the short names `Felt252`,
`ContractAddress` and `U256` are returned as they are, and so is an identifier
that the table does not map. -/
theorem TypeToReadableName_idempotent (t : String) :
    TypeToReadableName (TypeToReadableName t) = TypeToReadableName t
      ∧ TypeToReadableName "Felt252" = "Felt252"
      ∧ TypeToReadableName "ContractAddress" = "ContractAddress"
      ∧ TypeToReadableName "U256" = "U256"
      ∧ TypeToReadableName (TypeToReadableName "core::felt252") = "Felt252"
      ∧ TypeToReadableName (TypeToReadableName "foo::bar::baz") = "foo::bar::baz" := by
  refine ⟨?_, by decide, by decide, by decide, by decide, by decide⟩
  cases h : shortNames.lookup (finalSegment t) with
  | none =>
    have ht : TypeToReadableName t = t := by rw [TypeToReadableName_eq, h]; rfl
    rw [ht, ht]
  | some name =>
    have ht : TypeToReadableName t = name := by rw [TypeToReadableName_eq, h]; rfl
    rw [ht]
    rcases shortNames_values _ _ h with hn | hn | hn <;> subst hn <;> decide

/-- C12: type naming is total: for every string, the empty string and the
strings made of colons included, `strings.Split` returns at least one part, so
the guard `len(parts) > 0` holds, the index `len(parts)-1` is in range, and
`TypeToReadableName` returns the value of its guarded branch. -/
theorem TypeToReadableName_total (typ : String) :
    0 < (stringsSplit typ).length
      ∧ (stringsSplit typ).length - 1 < (stringsSplit typ).length
      ∧ (stringsSplit typ)[(stringsSplit typ).length - 1]? = some (finalSegment typ)
      ∧ TypeToReadableName typ
          = (match typeMappings.lookup (finalSegment typ) with
             | some name => name
             | none => typ)
      ∧ stringsSplit "" = [""]
      ∧ stringsSplit "::" = ["", ""]
      ∧ stringsSplit "::::" = ["", "", ""]
      ∧ stringsSplit ":::" = ["", ":"]
      ∧ TypeToReadableName "" = ""
      ∧ TypeToReadableName "::" = "::"
      ∧ TypeToReadableName "::::" = "::::" := by
  have hpos := stringsSplit_length_pos typ
  refine ⟨hpos, by omega, stringsSplit_last typ, ?_, by decide, by decide, by decide,
    by decide, by decide, by decide, by decide⟩
  rw [TypeToReadableName_guarded]
  cases typeMappings.lookup (finalSegment typ) <;> rfl

/-- C13: when `::` does not occur in `s`, `strings.Split` returns `s` alone, so
the final segment of `s` is `s`: an event named `s` is written with the
shortname `s`, and `TypeToReadableName s` is the entry of the table at `s`, or
`s` when `s` is not a key. -/
theorem no_separator_whole_name (s : String) (h : ¬ ("::".toList <:+: s.toList)) :
    stringsSplit s = [s]
      ∧ finalSegment s = s
      ∧ (∀ (typ : String) (members : List Member),
          eventLines ⟨⟨typ, s⟩, members⟩
            = some [Out.stdout ("Event: " ++ s ++ "(" ++ ", ".intercalate
                (members.map (fun m => m.Name ++ ": " ++ TypeToReadableName m.Typ)) ++ ")")])
      ∧ TypeToReadableName s
          = (match shortNames.lookup s with
             | some name => name
             | none => s) := by
  have hs := hasSep_false_of_absent s h
  have hf := finalSegment_of_no_sep s hs
  refine ⟨stringsSplit_of_no_sep s hs, hf, ?_, ?_⟩
  · intro typ members
    rw [eventLines_eq]
    simp only [hf, memberTexts_eq, stringsJoin]
  · rw [TypeToReadableName_eq, hf]
    cases shortNames.lookup s <;> rfl

/-- The key `felt252` and the name `Transfer`, which is not a key. -/
theorem no_separator_whole_name_witness :
    ¬ ("::".toList <:+: "felt252".toList)
      ∧ finalSegment "felt252" = "felt252"
      ∧ TypeToReadableName "felt252" = "Felt252"
      ∧ ¬ ("::".toList <:+: "Transfer".toList)
      ∧ TypeToReadableName "Transfer" = "Transfer"
      ∧ eventLines ⟨⟨"event", "Transfer"⟩, []⟩ = some [Out.stdout "Event: Transfer()"] :=
  ⟨by decide,
   (no_separator_whole_name "felt252" (by decide)).2.1,
   (no_separator_whole_name "felt252" (by decide)).2.2.2.trans (by decide),
   by decide,
   (no_separator_whole_name "Transfer" (by decide)).2.2.2.trans (by decide),
   ((no_separator_whole_name "Transfer" (by decide)).2.2.1 "event" []).trans (by decide)⟩

/-! ## The final segment as an end of the name -/

/-- Either the text is returned as a single part, or it ends with the separator
followed by the last part. -/
theorem splitSep_last_suffix (l : List Char) :
    splitSep l = [l] ∨ ∃ pre, l = pre ++ ':' :: ':' :: (splitSep l).getLast?.getD [] := by
  induction l using splitSep.induct with
  | case1 => exact Or.inl rfl
  | case2 rest ih =>
    right
    have hlast : (splitSep (':' :: ':' :: rest)).getLast? = (splitSep rest).getLast? := by
      rw [splitSep]
      cases hr : splitSep rest with
      | nil => exact absurd hr (splitSep_ne_nil rest)
      | cons q qs => rw [List.getLast?_cons_cons]
    rw [hlast]
    rcases ih with ih | ⟨pre, hpre⟩
    · refine ⟨[], ?_⟩
      rw [ih]
      rfl
    · refine ⟨':' :: ':' :: pre, ?_⟩
      rw [List.cons_append, List.cons_append, ← hpre]
  | case3 c rest hne h1 ih => exact absurd h1 (splitSep_ne_nil rest)
  | case4 c rest hne p ps h1 ih =>
    have hsplit : splitSep (c :: rest) = (c :: p) :: ps := by
      rw [splitSep.eq_3 c rest hne, h1]
    cases ps with
    | nil =>
      left
      rw [hsplit, splitSep_singleton rest p h1]
    | cons q qs =>
      rcases ih with ih | ⟨pre, hpre⟩
      · rw [h1] at ih
        simp at ih
      · right
        refine ⟨c :: pre, ?_⟩
        rw [hsplit, List.getLast?_cons_cons]
        rw [h1, List.getLast?_cons_cons] at hpre
        rw [List.cons_append, ← hpre]

theorem finalSegment_toList (s : String) :
    (finalSegment s).toList = (splitSep s.toList).getLast?.getD [] := by
  unfold finalSegment stringsSplit
  rw [List.getLast?_map]
  cases h : (splitSep s.toList).getLast? with
  | none =>
    rw [List.getLast?_eq_none_iff] at h
    exact absurd h (splitSep_ne_nil _)
  | some x => rfl

/-- The name is the final segment, or ends with `::` and the final segment. -/
theorem finalSegment_suffix (n : String) :
    finalSegment n = n ∨ ∃ pre : String, n = pre ++ "::" ++ finalSegment n := by
  rcases splitSep_last_suffix n.toList with h | ⟨pre, hpre⟩
  · left
    unfold finalSegment stringsSplit
    rw [h]
    rfl
  · right
    refine ⟨String.mk pre, String.ext ?_⟩
    have hfs := finalSegment_toList n
    simp only [String.toList] at hfs hpre
    rw [String.data_append, String.data_append, hfs, List.append_assoc]
    exact hpre

/-! ## Properties of the event case -/

/-- C14: the loop over the items never fails. For every event, whatever its
name, the index `len(parts)-1` is in range on the split name, so the event
case writes its line; the body of the loop has effects for every item, and the
loop over every item sequence runs to its end: when the payload has given an
item sequence, `GetParsedAbi` returns. Events with the empty name, without
name, and with a name made of colons are written with the empty shortname. -/
theorem processing_never_panics (parse : String → Option Json) (payload : String)
    (items : List GenericItem) :
    (processItems items).exit = Exit.returned
      ∧ (∀ item : GenericItem, ∃ effects, processItem item = some effects)
      ∧ (∀ event : EventType,
          (stringsSplit event.Name).length - 1 < (stringsSplit event.Name).length
            ∧ ∃ line, eventLines event = some [Out.stdout line])
      ∧ (normalizePayload parse payload = Except.ok items →
          GetParsedAbi parse payload = processItems items
            ∧ (GetParsedAbi parse payload).exit = Exit.returned)
      ∧ processItem (GenericItem.map [("type", Json.str "event"), ("name", Json.str "")])
          = some [Out.stdout "Event: ()"]
      ∧ processItem (GenericItem.map [("type", Json.str "event")])
          = some [Out.stdout "Event: ()"]
      ∧ processItem (GenericItem.map [("type", Json.str "event"), ("name", Json.null)])
          = some [Out.stdout "Event: ()"]
      ∧ processItem (GenericItem.map [("type", Json.str "event"), ("name", Json.str "::")])
          = some [Out.stdout "Event: ()"]
      ∧ processItem (GenericItem.map [("type", Json.str "event"), ("name", Json.str "::::")])
          = some [Out.stdout "Event: ()"]
      ∧ GetParsedAbi sampleParse arrayPayload
          = ⟨[Out.stdout "Event: Transfer(from: ContractAddress)"], Exit.returned⟩ := by
  refine ⟨processItems_exit items, ?_, ?_, ?_, by decide, by decide, by decide, by decide,
    by decide, by decide⟩
  · intro item
    cases h : processItem item with
    | none => exact absurd h (processItem_ne_none item)
    | some effects => exact ⟨effects, rfl⟩
  · intro event
    have hpos := stringsSplit_length_pos event.Name
    exact ⟨by omega, _, eventLines_eq event⟩
  · intro h
    have hg : GetParsedAbi parse payload = processItems items := by
      simp only [GetParsedAbi, h]
    exact ⟨hg, by rw [hg]; exact processItems_exit items⟩

/-- C15: for every event name `n`, the shortname written in the `Event` line is
the final segment of `n`; `::` does not occur in it, it is an end of `n`, and
when `::` occurs in `n`, `n` ends with `::` followed by the shortname. -/
theorem shortname_is_suffix (n typ : String) (members : List Member) :
    eventLines ⟨⟨typ, n⟩, members⟩
        = some [Out.stdout ("Event: " ++ finalSegment n ++ "(" ++ ", ".intercalate
            (members.map (fun m => m.Name ++ ": " ++ TypeToReadableName m.Typ)) ++ ")")]
      ∧ ¬ ("::".toList <:+: (finalSegment n).toList)
      ∧ (∃ pre : String, n = pre ++ finalSegment n)
      ∧ ("::".toList <:+: n.toList → ∃ pre : String, n = pre ++ "::" ++ finalSegment n)
      ∧ finalSegment "pkg::events::Transfer" = "Transfer"
      ∧ finalSegment "a:::b" = ":b"
      ∧ finalSegment "a::" = ""
      ∧ finalSegment "Transfer" = "Transfer" := by
  refine ⟨?_, ?_, ?_, ?_, by decide, by decide, by decide, by decide⟩
  · rw [eventLines_eq]
    simp only [memberTexts_eq, stringsJoin]
  · intro h
    have h1 := (hasSep_iff_occurs _).mpr h
    rw [finalSegment_no_sep] at h1
    exact absurd h1 (by simp)
  · rcases finalSegment_suffix n with h | ⟨pre, hpre⟩
    · exact ⟨"", by rw [h]; exact (String.empty_append n).symm⟩
    · exact ⟨pre ++ "::", hpre⟩
  · intro h
    rcases finalSegment_suffix n with h1 | h1
    · have h2 := finalSegment_no_sep n
      rw [h1] at h2
      rw [(hasSep_iff_occurs _).mpr h] at h2
      exact absurd h2 (by simp)
    · exact h1

end Decoder
